import Mathlib

/-!
Verification of the balloon ingestion & identity pipeline:
snapshot fetcher (API route `GET`), shape normalizer
(`extractLatestPositions` and friends), and identity tracker
(`assignStableIds` with 1-degree binning and haversine matching).

JavaScript runtime values that can reach the pipeline are modelled by
`JVal`: finite numbers are rationals, non-finite numbers (`NaN`,
`±Infinity`) get their own constructors, arrays and objects are lists.
-/

namespace Balloons

/-- Model of a JavaScript value as it appears after `JSON.parse` /
in the untyped payloads handled by the pipeline. -/
inductive JVal where
  | null : JVal
  | bool (b : Bool) : JVal
  | num (q : ℚ) : JVal
  | nan : JVal
  | inf (neg : Bool) : JVal
  | str (s : String) : JVal
  | arr (elems : List JVal) : JVal
  | obj (fields : List (String × JVal)) : JVal

/-- Source type `BalloonPoint`: `{ lat, lon, meta? }`. -/
structure BalloonPoint where
  lat : ℚ
  lon : ℚ
  meta : Option ℚ
deriving DecidableEq

/-- Source `isNumber(x)`: `typeof x === "number" && Number.isFinite(x)`.
`NaN` and `±Infinity` are of number type but not finite. -/
def isNumber : JVal → Bool
  | .num _ => true
  | _ => false

/-- Guarded numeric access: the rational value of a finite number. -/
def asFiniteNum : JVal → Option ℚ
  | .num q => some q
  | _ => none

/-- Source `isRecord(x)`: `typeof x === "object" && x !== null`.  In JS both
plain objects and arrays satisfy this. -/
def isRecord : JVal → Bool
  | .obj _ => true
  | .arr _ => true
  | _ => false

/-- Source `unwrapPayload`: if the payload is an object with a `"data"` key,
return that field, else the payload itself.  (`"data" in raw` is false
for arrays, so only `obj` unwraps.) -/
def unwrapPayload (raw : JVal) : JVal :=
  match raw with
  | .obj fields =>
      match fields.find? (fun f => f.1 = "data") with
      | some f => f.2
      | none => raw
  | _ => raw

/-- Source `normalizePoint(p)`: candidate `[a, b, attribute?]` becomes a
`BalloonPoint` or is dropped (`null`). -/
def normalizePoint (p : JVal) : Option BalloonPoint :=
  match p with
  | .arr (a :: b :: rest) =>
      match asFiniteNum a, asFiniteNum b with
      | some qa, some qb =>
          -- const looksLikeLonLat = Math.abs(a) > 90 && Math.abs(b) <= 90
          let looksLikeLonLat : Bool := decide (90 < |qa|) && decide (|qb| ≤ 90)
          let lat := if looksLikeLonLat then qb else qa
          let lon := if looksLikeLonLat then qa else qb
          if 90 < |lat| ∨ 180 < |lon| then none
          else some ⟨lat, lon, rest.head?.bind asFiniteNum⟩
      | _, _ => none
  | _ => none

/-- Source `isFlatPointsShape(data)`. -/
def isFlatPointsShape : JVal → Bool
  | .arr [] => true
  | .arr (first :: _) =>
      match first with
      | .arr (x :: y :: _) => isNumber x && isNumber y
      | _ => false
  | _ => false

/-- Source `isTracksShape(data)`. -/
def isTracksShape : JVal → Bool
  | .arr [] => true
  | .arr (firstTrack :: _) =>
      match firstTrack with
      | .arr (firstPoint :: _) =>
          match firstPoint with
          | .arr (x :: y :: _) => isNumber x && isNumber y
          | _ => false
      | _ => false
  | _ => false

/-- Test `Array.isArray(data) && data.length === 0`. -/
def isEmptyArray : JVal → Bool
  | .arr [] => true
  | _ => false

/-- The element list of an array value (the branches of
`extractLatestPositions` only reach it when the value is an array). -/
def jarr : JVal → List JVal
  | .arr l => l
  | _ => []

/-- Guarded access `Array.isArray(track) && track.length ? track[track.length - 1] : null`. -/
def trackLast : JVal → Option JVal
  | .arr l => l.getLast?
  | _ => none

/-- Model of `JSON.stringify` on our value model (numbers are printed
via `toString`; `NaN`/`Infinity` serialize as `null` as in JS). -/
def stringify : JVal → String
  | .null => "null"
  | .bool true => "true"
  | .bool false => "false"
  | .num q => toString q
  | .nan => "null"
  | .inf _ => "null"
  | .str s => "\"" ++ s ++ "\""
  | .arr l => "[" ++ String.intercalate "," (l.attach.map (fun x => stringify x.1)) ++ "]"
  | .obj fs =>
      "\x7b" ++
        String.intercalate ","
          (fs.attach.map (fun f => "\"" ++ f.1.1 ++ "\":" ++ stringify f.1.2)) ++
      "\x7d"
decreasing_by
  · have h := List.sizeOf_lt_of_mem x.2
    simp only [JVal.arr.sizeOf_spec]
    omega
  · have h := List.sizeOf_lt_of_mem f.2
    have h2 : sizeOf f.1.2 < sizeOf f.1 := by
      obtain ⟨a, b⟩ := f.1
      simp only [Prod.mk.sizeOf_spec]
      omega
    simp only [JVal.obj.sizeOf_spec]
    omega

/-- Source `extractLatestPositions(raw)`: unwrap, then route by shape;
unknown shapes fail with a truncated preview. -/
def extractLatestPositions (raw : JVal) : Except String (List BalloonPoint) :=
  let data := unwrapPayload raw
  if isEmptyArray data then .ok []
  else if isFlatPointsShape data then
    -- data.map(normalizePoint).filter(Boolean)
    .ok ((jarr data).filterMap normalizePoint)
  else if isTracksShape data then
    -- tracks.map(last-or-null).map(normalizePoint).filter(Boolean)
    .ok ((jarr data).filterMap (fun t => (trackLast t).bind normalizePoint))
  else
    .error ("Unexpected balloon data shape. Preview: " ++ (stringify data).take 200)

example : extractLatestPositions (.arr []) = .ok [] := by rfl
example :
    extractLatestPositions
      (.arr [.arr [.num 1, .num 2], .arr [.num 3, .num 4]]) =
      .ok [⟨1, 2, none⟩, ⟨3, 4, none⟩] := by rfl
example :
    extractLatestPositions
      (.arr [.arr [.arr [.num 1, .num 2], .arr [.num 3, .num 4]],
             .arr [.arr [.num 5, .num 6]]]) =
      .ok [⟨3, 4, none⟩, ⟨5, 6, none⟩] := by rfl
example : normalizePoint (.arr [.num 100, .num 45]) = some ⟨45, 100, none⟩ := by rfl
example : normalizePoint (.arr [.num 45, .num 100]) = some ⟨45, 100, none⟩ := by rfl

/-! ## Snapshot fetcher (`app/api/balloons/route.ts`, function `GET`) -/

/-- A JavaScript number: finite (a rational), `NaN`, or `±Infinity`. -/
inductive JNum where
  | fin (q : ℚ) : JNum
  | nan : JNum
  | inf (neg : Bool) : JNum
deriving DecidableEq

/-- Source `clampHoursAgo(v)`: non-finite becomes 0, else
`Math.max(0, Math.min(23, Math.floor(v)))`. -/
def clampHoursAgo : JNum → ℕ
  | .fin q => (max 0 (min 23 ⌊q⌋)).toNat
  | .nan => 0
  | .inf _ => 0

/-- JavaScript `Math.round(x)`: halves round toward positive infinity. -/
def jsRound (x : ℚ) : ℤ := ⌊x + 1 / 2⌋

/-- JavaScript truthiness of a value (used by
`if (globalThis.__balloonCache?.data)`). -/
def truthy : JVal → Bool
  | .null => false
  | .bool b => b
  | .num q => decide (q ≠ 0)
  | .nan => false
  | .inf _ => true
  | .str s => decide (s ≠ "")
  | .arr _ => true
  | .obj _ => true

/-- The single-slot last-known-good cache entry
(`{ timestampMs, hoursAgo, data }`). -/
structure CacheEntry where
  timestampMs : ℤ
  hoursAgo : ℕ
  data : JVal

/-- The JSON responses the route can produce: a fresh upstream bucket
(status 200), the cached fallback (status 200), or the hard failure
(status 502). -/
inductive BalloonsResp where
  | upstream (hoursAgo : ℕ) (data : JVal) : BalloonsResp
  | cache (hoursAgo : ℕ) (cacheAgeSeconds : ℤ) (data : JVal) : BalloonsResp
  | fail (details : String) : BalloonsResp

/-- HTTP status of a response. -/
def BalloonsResp.status : BalloonsResp → ℕ
  | .upstream _ _ => 200
  | .cache _ _ _ => 200
  | .fail _ => 502

/-- The candidate loop of `GET`: try each bucket in order, remembering
the last error (`lastError`); first success wins. -/
def tryBuckets (fetchU : ℕ → Except String JVal) :
    List ℕ → Option String → Except (Option String) (ℕ × JVal)
  | [], lastErr => .error lastErr
  | h :: rest, lastErr =>
      match fetchU h with
      | .ok d => .ok (h, d)
      | .error e => tryBuckets fetchU rest (some e)

/-- Rendering `String(lastError)` at the 502 site (`lastError` is `null` only if
no bucket was ever attempted). -/
def lastErrText : Option String → String
  | some e => e
  | none => "null"

/-- The `GET` handler, parameterized by the upstream oracle `fetchU`
(one network attempt per bucket, `Except.error` = non-2xx or transport
failure) and the current time `now` (ms).  Returns the new cache slot
and the response. -/
def GETballoons (fetchU : ℕ → Except String JVal) (now : ℤ)
    (cache : Option CacheEntry) (requested : JNum) :
    Option CacheEntry × BalloonsResp :=
  let r := clampHoursAgo requested
  -- for (let h = r; h <= 23; h++) candidates.push(h)
  let candidates := List.range' r (24 - r)
  match tryBuckets fetchU candidates none with
  | .ok (h, data) => (some ⟨now, h, data⟩, .upstream h data)
  | .error lastErr =>
      match cache with
      | some c =>
          if truthy c.data then
            (some c, .cache c.hoursAgo (jsRound ((now - c.timestampMs : ℚ) / 1000)) c.data)
          else (some c, .fail (lastErrText lastErr))
      | none => (none, .fail (lastErrText lastErr))

example :
    GETballoons (fun _ => .error ("boom")) 5000 none (.fin 22) =
      (none, .fail ("boom")) := by rfl
example :
    GETballoons (fun h => if h = 2 then .ok .null else .error ("x")) 7 none (.fin 0) =
      (some ⟨7, 2, .null⟩, .upstream 2 .null) := by rfl

/-! ## Identity tracker (`components/MapboxBalloons.tsx`) -/

/-- Source `haversineKm(aLat, aLon, bLat, bLon)`: great-circle distance on a
sphere of radius 6371 km (the source computes with JS doubles; we model
the same expression over the reals). -/
noncomputable def haversineKm (aLat aLon bLat bLon : ℚ) : ℝ :=
  let R : ℝ := 6371
  let toRad : ℚ → ℝ := fun dg => (dg : ℝ) * Real.pi / 180
  let dLat := toRad (bLat - aLat)
  let dLon := toRad (bLon - aLon)
  let s1 := Real.sin (dLat / 2)
  let s2 := Real.sin (dLon / 2)
  let q := s1 * s1 + Real.cos (toRad aLat) * Real.cos (toRad bLat) * s2 * s2
  2 * R * Real.arcsin (min 1 (Real.sqrt q))

/-- Source `binKey(lat, lon)` with `BIN_DEG = 1`:
`` `${floor((lat+90)/1)},${floor((lon+180)/1)}` ``. -/
def binKey (lat lon : ℚ) : String :=
  toString ⌊(lat + 90) / 1⌋ ++ "," ++ toString ⌊(lon + 180) / 1⌋

/-- Source `neighborBinKeys(lat, lon)`: the 9 keys of the 3×3 block around the
point's own cell, in loop order (`dy` outer from −1 to 1, `dx` inner). -/
def neighborBinKeys (lat lon : ℚ) : List String :=
  let y0 := ⌊(lat + 90) / 1⌋
  let x0 := ⌊(lon + 180) / 1⌋
  [toString (y0 - 1) ++ "," ++ toString (x0 - 1),
   toString (y0 - 1) ++ "," ++ toString x0,
   toString (y0 - 1) ++ "," ++ toString (x0 + 1),
   toString y0 ++ "," ++ toString (x0 - 1),
   toString y0 ++ "," ++ toString x0,
   toString y0 ++ "," ++ toString (x0 + 1),
   toString (y0 + 1) ++ "," ++ toString (x0 - 1),
   toString (y0 + 1) ++ "," ++ toString x0,
   toString (y0 + 1) ++ "," ++ toString (x0 + 1)]

/-- One row of the previous-poll identity table: `id → {lat, lon}`. -/
structure PrevEntry where
  id : String
  lat : ℚ
  lon : ℚ
deriving DecidableEq

/-- Update `bins.set(k, arr.push(v))` on the grouping map: append `v` to the
bucket of key `k`, creating the bucket at the end if absent. -/
def pushBin (m : List (String × List PrevEntry)) (k : String) (v : PrevEntry) :
    List (String × List PrevEntry) :=
  match m with
  | [] => [(k, [v])]
  | (k', l) :: rest =>
      if k' = k then (k', l ++ [v]) :: rest else (k', l) :: pushBin rest k v

/-- The bin-building loop over the previous table. -/
def buildBins (prev : List PrevEntry) : List (String × List PrevEntry) :=
  prev.foldl (fun m e => pushBin m (binKey e.lat e.lon) e) []

/-- Lookup `bins.get(k)`, with a missing bucket read as the empty list. -/
def getBin : List (String × List PrevEntry) → String → List PrevEntry
  | [], _ => []
  | (k', l) :: rest, k => if k' = k then l else getBin rest k

/-- The candidates the inner loops of `assignStableIds` visit for a
current point: each neighbor key's bucket, in key order. -/
def candsFor (bins : List (String × List PrevEntry)) (p : BalloonPoint) :
    List PrevEntry :=
  (neighborBinKeys p.lat p.lon).flatMap (getBin bins)

/-- The nearest-unclaimed scan: fold of
`if (usedPrevIds.has(c.id)) continue; km = haversine(...);
if (km < bestKm) { bestKm = km; bestId = c.id }` with
`bestId = null, bestKm = Infinity` at entry (`none` plays `null`). -/
def scanStep {α : Type} [LinearOrderedField α] (d : ℚ → ℚ → ℚ → ℚ → α)
    (used : List String) (p : BalloonPoint)
    (best : Option (String × α)) (c : PrevEntry) : Option (String × α) :=
  if c.id ∈ used then best
  else
    let km := d p.lat p.lon c.lat c.lon
    match best with
    | none => some (c.id, km)
    | some b => if km < b.2 then some (c.id, km) else some b

/-- The scan over all visited candidates, starting from
`bestId = null, bestKm = Infinity`. -/
def scanBest {α : Type} [LinearOrderedField α] (d : ℚ → ℚ → ℚ → ℚ → α)
    (used : List String) (p : BalloonPoint) (cands : List PrevEntry) :
    Option (String × α) :=
  cands.foldl (scanStep d used p) none

/-- An output row of `assignStableIds`:
`{ id, lat, lon, meta?, idx }`. -/
structure Tracked where
  id : String
  lat : ℚ
  lon : ℚ
  meta : Option ℚ
  idx : ℕ
deriving DecidableEq

/-- The mutable loop state of `assignStableIds`: the claimed previous
ids, the process-lifetime id counter, and the rows pushed so far. -/
structure TrkState where
  used : List String
  nextId : ℕ
  out : List Tracked
deriving DecidableEq

/-- One iteration of the matching loop (current point with its index).
`bestId && bestKm <= MATCH_KM` requires a non-null *and non-empty*
best id (JS truthiness) and the inclusive 150 km threshold. -/
def trackStep {α : Type} [LinearOrderedField α] (d : ℚ → ℚ → ℚ → ℚ → α)
    (bins : List (String × List PrevEntry)) (st : TrkState)
    (ip : ℕ × BalloonPoint) : TrkState :=
  let idx := ip.1
  let p := ip.2
  match scanBest d st.used p (candsFor bins p) with
  | some best =>
      if best.1 ≠ "" ∧ best.2 ≤ 150 then
        ⟨best.1 :: st.used, st.nextId,
         st.out ++ [⟨best.1, p.lat, p.lon, p.meta, idx⟩]⟩
      else
        ⟨st.used, st.nextId + 1,
         st.out ++ [⟨"b" ++ Nat.repr st.nextId, p.lat, p.lon, p.meta, idx⟩]⟩
  | none =>
      ⟨st.used, st.nextId + 1,
       st.out ++ [⟨"b" ++ Nat.repr st.nextId, p.lat, p.lon, p.meta, idx⟩]⟩

/-- Update `newPrev.set(id, position)`: JS `Map.set` semantics — overwrite
in place if the key exists, else append. -/
def mapSet (m : List PrevEntry) (id : String) (lat lon : ℚ) : List PrevEntry :=
  match m with
  | [] => [⟨id, lat, lon⟩]
  | e :: rest =>
      if e.id = id then ⟨id, lat, lon⟩ :: rest else e :: mapSet rest id lat lon

/-- Source `assignStableIds(points)` against an explicit previous table `prev`
and counter `c0`, generic in the distance function `d`.  Returns the
final loop state (whose `out` is the returned array and whose `nextId`
is the updated counter) together with the rebuilt table `newPrev`. -/
def assignStableIdsGen {α : Type} [LinearOrderedField α]
    (d : ℚ → ℚ → ℚ → ℚ → α) (prev : List PrevEntry) (c0 : ℕ)
    (pts : List BalloonPoint) : TrkState × List PrevEntry :=
  let bins := buildBins prev
  let st := (pts.enum).foldl (trackStep d bins) ⟨[], c0, []⟩
  (st, st.out.foldl (fun m t => mapSet m t.id t.lat t.lon) [])

/-- The source's `assignStableIds`: the generic loop with the real
haversine distance. -/
noncomputable def assignStableIds : List PrevEntry → ℕ → List BalloonPoint →
    TrkState × List PrevEntry :=
  assignStableIdsGen haversineKm

/-- The loop state after the first `i` points (for stating per-step
properties of the matching loop). -/
def stAt {α : Type} [LinearOrderedField α] (d : ℚ → ℚ → ℚ → ℚ → α)
    (prev : List PrevEntry) (c0 : ℕ) (pts : List BalloonPoint) (i : ℕ) :
    TrkState :=
  ((pts.enum).take i).foldl (trackStep d (buildBins prev)) ⟨[], c0, []⟩

/-- The cross-poll state of `MapboxBalloons`: `prevByIdRef` and
`nextIdRef`. -/
structure PollState where
  prevById : List PrevEntry
  nextId : ℕ

/-- The data path of `refreshBalloons`: fetch (whose failure, or the
normalizer's, raises before the tracker runs and leaves both refs
untouched), then `assignStableIds`, then swap the refs. -/
noncomputable def refreshBalloons (raw : Except String JVal) (st : PollState) :
    PollState × Except String (List Tracked) :=
  match raw.bind extractLatestPositions with
  | .error e => (st, .error e)
  | .ok pts =>
      let r := assignStableIds st.prevById st.nextId pts
      (⟨r.2, r.1.nextId⟩, .ok r.1.out)

/-! ## Decimal representation: `Nat.repr` is injective

Minted identifiers are `"b" + String(counter)`; their pairwise
distinctness reduces to injectivity of the decimal printer. -/

/-- Numeric value of a decimal digit character. -/
def charVal (c : Char) : ℕ := c.toNat - 48

/-- Value of a decimal digit string, most significant digit first. -/
def listVal : List Char → ℕ
  | [] => 0
  | c :: cs => charVal c * 10 ^ cs.length + listVal cs

theorem charVal_digitChar : ∀ d < 10, charVal (Nat.digitChar d) = d := by decide

theorem toDigitsCore_val :
    ∀ (fuel n : ℕ) (acc : List Char), n < 10 ^ fuel →
      listVal (Nat.toDigitsCore 10 fuel n acc) = n * 10 ^ acc.length + listVal acc := by
  intro fuel
  induction fuel with
  | zero =>
      intro n acc h
      simp only [pow_zero, Nat.lt_one_iff] at h
      subst h
      simp [Nat.toDigitsCore]
  | succ f ih =>
      intro n acc h
      have hmod : n % 10 < 10 := Nat.mod_lt _ (by norm_num)
      by_cases h10 : n / 10 = 0
      · have hn : n < 10 := by omega
        have : Nat.toDigitsCore 10 (f + 1) n acc = Nat.digitChar (n % 10) :: acc := by
          simp [Nat.toDigitsCore, h10]
        rw [this]
        simp only [listVal, List.length_cons]
        rw [charVal_digitChar _ hmod]
        rw [Nat.mod_eq_of_lt hn]
      · have hstep :
            Nat.toDigitsCore 10 (f + 1) n acc =
              Nat.toDigitsCore 10 f (n / 10) (Nat.digitChar (n % 10) :: acc) := by
          simp [Nat.toDigitsCore, h10]
        have hlt : n / 10 < 10 ^ f := by
          rw [Nat.div_lt_iff_lt_mul (by norm_num)]
          calc n < 10 ^ (f + 1) := h
            _ = 10 ^ f * 10 := by rw [pow_succ]
        rw [hstep, ih _ _ hlt]
        simp only [listVal, List.length_cons]
        rw [charVal_digitChar _ hmod]
        have hdm := Nat.div_add_mod n 10
        have hp : 10 ^ (acc.length + 1) = 10 ^ acc.length * 10 := by rw [pow_succ]
        rw [hp]
        conv_rhs => rw [← hdm]
        ring

theorem listVal_repr (n : ℕ) : listVal (Nat.repr n).data = n := by
  have h : n < 10 ^ (n + 1) := by
    calc n < 2 ^ n := Nat.lt_two_pow n
      _ ≤ 10 ^ n := Nat.pow_le_pow_left (by norm_num) _
      _ ≤ 10 ^ (n + 1) := Nat.pow_le_pow_right (by norm_num) (Nat.le_succ n)
  have := toDigitsCore_val (n + 1) n [] h
  simpa [Nat.repr, Nat.toDigits, List.asString, listVal] using this

theorem natRepr_injective {m n : ℕ} (h : Nat.repr m = Nat.repr n) : m = n := by
  have := congrArg (fun s => listVal s.data) h
  simpa [listVal_repr] using this

theorem mintedId_inj {m n : ℕ} (h : "b" ++ Nat.repr m = "b" ++ Nat.repr n) : m = n := by
  apply natRepr_injective
  have := congrArg String.data h
  simp only [String.data_append] at this
  exact congrArg String.mk (by simpa using this)

/-! ## Grouping: reading the bins back -/

theorem getBin_pushBin (m : List (String × List PrevEntry)) (k : String)
    (v : PrevEntry) (k' : String) :
    getBin (pushBin m k v) k' =
      if k = k' then getBin m k' ++ [v] else getBin m k' := by
  induction m with
  | nil =>
      by_cases h : k = k'
      · subst h; simp [pushBin, getBin]
      · simp [pushBin, getBin, h]
  | cons e rest ih =>
      obtain ⟨k₀, l₀⟩ := e
      by_cases h0 : k₀ = k
      · subst h0
        by_cases h : k₀ = k'
        · subst h; simp [pushBin, getBin]
        · simp [pushBin, getBin, h]
      · simp only [pushBin, if_neg h0, getBin]
        by_cases h : k₀ = k'
        · subst h
          have hkk : ¬ k = k₀ := fun hh => h0 hh.symm
          simp [hkk]
        · simp [h, ih]

theorem getBin_buildBins (prev : List PrevEntry) (k : String) :
    getBin (buildBins prev) k = prev.filter (fun e => binKey e.lat e.lon = k) := by
  suffices h : ∀ (l : List PrevEntry) (m : List (String × List PrevEntry)),
      getBin (l.foldl (fun m e => pushBin m (binKey e.lat e.lon) e) m) k =
        getBin m k ++ l.filter (fun e => binKey e.lat e.lon = k) by
    simpa [buildBins, getBin] using h prev []
  intro l
  induction l with
  | nil => intro m; simp
  | cons e rest ih =>
      intro m
      simp only [List.foldl_cons, ih, getBin_pushBin]
      by_cases h : binKey e.lat e.lon = k
      · simp [h, List.filter_cons]
      · simp [h, List.filter_cons]

theorem mem_candsFor (prev : List PrevEntry) (p : BalloonPoint) (e : PrevEntry) :
    e ∈ candsFor (buildBins prev) p ↔
      e ∈ prev ∧ binKey e.lat e.lon ∈ neighborBinKeys p.lat p.lon := by
  simp only [candsFor, List.mem_flatMap, getBin_buildBins, List.mem_filter,
    decide_eq_true_eq]
  constructor
  · rintro ⟨k, hk, he, hkey⟩
    exact ⟨he, hkey ▸ hk⟩
  · rintro ⟨he, hkey⟩
    exact ⟨binKey e.lat e.lon, hkey, he, rfl⟩

/-! ## Properties of the nearest-unclaimed scan -/

theorem scanFold_eq_none {α : Type} [LinearOrderedField α] {d : ℚ → ℚ → ℚ → ℚ → α}
    {used : List String} {p : BalloonPoint} :
    ∀ (cands : List PrevEntry) (init : Option (String × α)),
      cands.foldl (scanStep d used p) init = none →
      init = none ∧ ∀ c ∈ cands, c.id ∈ used := by
  intro cands
  induction cands with
  | nil => intro init h; exact ⟨h, by simp⟩
  | cons c cs ih =>
      intro init h
      simp only [List.foldl_cons] at h
      obtain ⟨hstep, hall⟩ := ih _ h
      by_cases hu : c.id ∈ used
      · rw [show scanStep d used p init c = init by simp [scanStep, hu]] at hstep
        refine ⟨hstep, ?_⟩
        intro c' hc'
        rcases List.mem_cons.mp hc' with rfl | hc'
        · exact hu
        · exact hall c' hc'
      · exfalso
        cases init with
        | none => simp [scanStep, hu] at hstep
        | some b =>
            simp only [scanStep, if_neg hu] at hstep
            by_cases hlt : d p.lat p.lon c.lat c.lon < b.2 <;>
              simp [hlt] at hstep

theorem scanFold_some {α : Type} [LinearOrderedField α] {d : ℚ → ℚ → ℚ → ℚ → α}
    {used : List String} {p : BalloonPoint} :
    ∀ (cands : List PrevEntry) (init : Option (String × α)) (i : String) (km : α),
      cands.foldl (scanStep d used p) init = some (i, km) →
      (init = some (i, km) ∨
        ∃ c, c ∈ cands ∧ c.id ∉ used ∧ c.id = i ∧ d p.lat p.lon c.lat c.lon = km) ∧
      (∀ c ∈ cands, c.id ∉ used → km ≤ d p.lat p.lon c.lat c.lon) ∧
      (∀ j kj, init = some (j, kj) → km ≤ kj) := by
  intro cands
  induction cands with
  | nil =>
      intro init i km h
      simp only [List.foldl_nil] at h
      subst h
      refine ⟨Or.inl rfl, by simp, ?_⟩
      intro j kj hj
      obtain ⟨rfl, rfl⟩ : j = i ∧ kj = km := by
        have := Option.some.inj hj
        exact ⟨congrArg Prod.fst this.symm, congrArg Prod.snd this.symm⟩
      exact le_refl _
  | cons c cs ih =>
      intro init i km h
      simp only [List.foldl_cons] at h
      obtain ⟨horig, hmin, hinit⟩ := ih (scanStep d used p init c) i km h
      by_cases hu : c.id ∈ used
      · have hstep : scanStep d used p init c = init := by simp [scanStep, hu]
        rw [hstep] at horig hinit
        refine ⟨?_, ?_, hinit⟩
        · rcases horig with h1 | ⟨c', hc', h2⟩
          · exact Or.inl h1
          · exact Or.inr ⟨c', List.mem_cons_of_mem _ hc', h2⟩
        · intro c' hc' hcu
          rcases List.mem_cons.mp hc' with rfl | hc'
          · exact absurd hu hcu
          · exact hmin c' hc' hcu
      · cases init with
        | none =>
            have hstep : scanStep d used p none c =
                some (c.id, d p.lat p.lon c.lat c.lon) := by
              simp [scanStep, hu]
            rw [hstep] at horig hinit
            refine ⟨?_, ?_, by simp⟩
            · rcases horig with h1 | ⟨c', hc', hcu', hce, hkm⟩
              · obtain ⟨h1a, h1b⟩ := Prod.mk.injEq .. ▸ Option.some.inj h1
                exact Or.inr ⟨c, List.mem_cons_self c cs, hu, h1a, h1b⟩
              · exact Or.inr ⟨c', List.mem_cons_of_mem _ hc', hcu', hce, hkm⟩
            · intro c' hc' hcu
              rcases List.mem_cons.mp hc' with rfl | hc'
              · exact hinit c'.id (d p.lat p.lon c'.lat c'.lon) rfl
              · exact hmin c' hc' hcu
        | some b =>
            by_cases hlt : d p.lat p.lon c.lat c.lon < b.2
            · have hstep : scanStep d used p (some b) c =
                  some (c.id, d p.lat p.lon c.lat c.lon) := by
                simp [scanStep, hu, hlt]
              rw [hstep] at horig hinit
              refine ⟨?_, ?_, ?_⟩
              · rcases horig with h1 | ⟨c', hc', hcu', hce, hkm⟩
                · obtain ⟨h1a, h1b⟩ := Prod.mk.injEq .. ▸ Option.some.inj h1
                  exact Or.inr ⟨c, List.mem_cons_self c cs, hu, h1a, h1b⟩
                · exact Or.inr ⟨c', List.mem_cons_of_mem _ hc', hcu', hce, hkm⟩
              · intro c' hc' hcu
                rcases List.mem_cons.mp hc' with rfl | hc'
                · exact hinit c'.id (d p.lat p.lon c'.lat c'.lon) rfl
                · exact hmin c' hc' hcu
              · intro j kj hj
                have hb : b = (j, kj) := Option.some.inj hj
                have h1 : km ≤ d p.lat p.lon c.lat c.lon :=
                  hinit c.id (d p.lat p.lon c.lat c.lon) rfl
                calc km ≤ d p.lat p.lon c.lat c.lon := h1
                  _ ≤ b.2 := le_of_lt hlt
                  _ = kj := by rw [hb]
            · have hstep : scanStep d used p (some b) c = some b := by
                simp [scanStep, hu, hlt]
              rw [hstep] at horig hinit
              refine ⟨?_, ?_, hinit⟩
              · rcases horig with h1 | ⟨c', hc', h2⟩
                · exact Or.inl h1
                · exact Or.inr ⟨c', List.mem_cons_of_mem _ hc', h2⟩
              · intro c' hc' hcu
                rcases List.mem_cons.mp hc' with rfl | hc'
                · have h1 : km ≤ b.2 := hinit b.1 b.2 rfl
                  exact h1.trans (not_lt.mp hlt)
                · exact hmin c' hc' hcu

theorem scanBest_none {α : Type} [LinearOrderedField α] {d : ℚ → ℚ → ℚ → ℚ → α}
    {used : List String} {p : BalloonPoint} {cands : List PrevEntry}
    (h : scanBest d used p cands = none) : ∀ c ∈ cands, c.id ∈ used :=
  (scanFold_eq_none cands none h).2

theorem scanBest_some {α : Type} [LinearOrderedField α] {d : ℚ → ℚ → ℚ → ℚ → α}
    {used : List String} {p : BalloonPoint} {cands : List PrevEntry}
    {i : String} {km : α} (h : scanBest d used p cands = some (i, km)) :
    (∃ c, c ∈ cands ∧ c.id ∉ used ∧ c.id = i ∧ d p.lat p.lon c.lat c.lon = km) ∧
    (∀ c ∈ cands, c.id ∉ used → km ≤ d p.lat p.lon c.lat c.lon) := by
  obtain ⟨horig, hmin, _⟩ := scanFold_some cands none i km h
  rcases horig with h1 | h1
  · exact absurd h1 (by simp)
  · exact ⟨h1, hmin⟩

/-! ## The matching loop, step by step -/

theorem trackStep_none {α : Type} [LinearOrderedField α] {d : ℚ → ℚ → ℚ → ℚ → α}
    {bins : List (String × List PrevEntry)} {st : TrkState} (ip : ℕ × BalloonPoint)
    (h : scanBest d st.used ip.2 (candsFor bins ip.2) = none) :
    trackStep d bins st ip =
      ⟨st.used, st.nextId + 1,
       st.out ++ [⟨"b" ++ Nat.repr st.nextId, ip.2.lat, ip.2.lon, ip.2.meta, ip.1⟩]⟩ := by
  simp only [trackStep, scanBest] at h ⊢
  rw [h]

theorem trackStep_matched {α : Type} [LinearOrderedField α] {d : ℚ → ℚ → ℚ → ℚ → α}
    {bins : List (String × List PrevEntry)} {st : TrkState} (ip : ℕ × BalloonPoint)
    {b : String × α} (h : scanBest d st.used ip.2 (candsFor bins ip.2) = some b)
    (hc : b.1 ≠ "" ∧ b.2 ≤ 150) :
    trackStep d bins st ip =
      ⟨b.1 :: st.used, st.nextId,
       st.out ++ [⟨b.1, ip.2.lat, ip.2.lon, ip.2.meta, ip.1⟩]⟩ := by
  simp only [trackStep, scanBest] at h ⊢
  rw [h]
  simp [hc.1, hc.2]

theorem trackStep_over {α : Type} [LinearOrderedField α] {d : ℚ → ℚ → ℚ → ℚ → α}
    {bins : List (String × List PrevEntry)} {st : TrkState} (ip : ℕ × BalloonPoint)
    {b : String × α} (h : scanBest d st.used ip.2 (candsFor bins ip.2) = some b)
    (hc : ¬ (b.1 ≠ "" ∧ b.2 ≤ 150)) :
    trackStep d bins st ip =
      ⟨st.used, st.nextId + 1,
       st.out ++ [⟨"b" ++ Nat.repr st.nextId, ip.2.lat, ip.2.lon, ip.2.meta, ip.1⟩]⟩ := by
  simp only [trackStep, scanBest] at h ⊢
  rw [h]
  simp only [if_neg hc]

theorem trackStep_out_append {α : Type} [LinearOrderedField α]
    (d : ℚ → ℚ → ℚ → ℚ → α) (bins : List (String × List PrevEntry))
    (st : TrkState) (ip : ℕ × BalloonPoint) :
    ∃ t, (trackStep d bins st ip).out = st.out ++ [t] := by
  cases h : scanBest d st.used ip.2 (candsFor bins ip.2) with
  | none => exact ⟨_, by rw [trackStep_none ip h]⟩
  | some b =>
      by_cases hc : b.1 ≠ "" ∧ b.2 ≤ 150
      · exact ⟨_, by rw [trackStep_matched ip h hc]⟩
      · exact ⟨_, by rw [trackStep_over ip h hc]⟩

theorem enum_take_succ {pts : List BalloonPoint} {i : ℕ} (hi : i < pts.length) :
    (pts.enum).take (i + 1) = (pts.enum).take i ++ [(i, pts[i])] := by
  rw [List.take_succ]
  have h : (pts.enum)[i]? = some (i, pts[i]) := by
    simp [List.enum, List.getElem?_enumFrom, List.getElem?_eq_getElem hi]
  rw [h]
  rfl

theorem stAt_succ {α : Type} [LinearOrderedField α] (d : ℚ → ℚ → ℚ → ℚ → α)
    (prev : List PrevEntry) (c0 : ℕ) (pts : List BalloonPoint) {i : ℕ}
    (hi : i < pts.length) :
    stAt d prev c0 pts (i + 1) =
      trackStep d (buildBins prev) (stAt d prev c0 pts i) (i, pts[i]) := by
  simp [stAt, enum_take_succ hi, List.foldl_append]

theorem stAt_of_length_le {α : Type} [LinearOrderedField α] (d : ℚ → ℚ → ℚ → ℚ → α)
    (prev : List PrevEntry) (c0 : ℕ) (pts : List BalloonPoint) {i : ℕ}
    (hi : pts.length ≤ i) :
    stAt d prev c0 pts i = stAt d prev c0 pts pts.length := by
  have hlen : (pts.enum).length = pts.length := by
    simp [List.enum, List.enumFrom_length]
  simp only [stAt]
  rw [List.take_of_length_le (by omega), List.take_of_length_le (by omega)]

theorem stAt_out_length {α : Type} [LinearOrderedField α] (d : ℚ → ℚ → ℚ → ℚ → α)
    (prev : List PrevEntry) (c0 : ℕ) (pts : List BalloonPoint) (i : ℕ) :
    (stAt d prev c0 pts i).out.length = min i pts.length := by
  induction i with
  | zero => simp [stAt]
  | succ n ihn =>
      by_cases h : n < pts.length
      · rw [stAt_succ d prev c0 pts h]
        obtain ⟨t, ht⟩ := trackStep_out_append d (buildBins prev)
          (stAt d prev c0 pts n) (n, pts[n])
        rw [ht, List.length_append, ihn]
        simp only [List.length_cons, List.length_nil]
        omega
      · have hle : pts.length ≤ n := not_lt.mp h
        have h1 : (stAt d prev c0 pts pts.length).out.length = min n pts.length := by
          rw [← stAt_of_length_le d prev c0 pts hle]; exact ihn
        rw [stAt_of_length_le d prev c0 pts (by omega), h1]
        omega

theorem stAt_out_mono {α : Type} [LinearOrderedField α] (d : ℚ → ℚ → ℚ → ℚ → α)
    (prev : List PrevEntry) (c0 : ℕ) (pts : List BalloonPoint) {i j : ℕ}
    (hij : i ≤ j) :
    ∃ t, (stAt d prev c0 pts j).out = (stAt d prev c0 pts i).out ++ t := by
  induction j with
  | zero =>
      have : i = 0 := by omega
      subst this
      exact ⟨[], by simp⟩
  | succ n ihn =>
      rcases Nat.lt_or_ge i (n + 1) with hlt | hge
      · obtain ⟨t, ht⟩ := ihn (by omega)
        by_cases h : n < pts.length
        · rw [stAt_succ d prev c0 pts h]
          obtain ⟨t1, ht1⟩ := trackStep_out_append d (buildBins prev)
            (stAt d prev c0 pts n) (n, pts[n])
          exact ⟨t ++ [t1], by rw [ht1, ht, List.append_assoc]⟩
        · rw [stAt_of_length_le d prev c0 pts (by omega),
            ← stAt_of_length_le d prev c0 pts (by omega : pts.length ≤ n)]
          exact ⟨t, ht⟩
      · have : i = n + 1 := by omega
        subst this
        exact ⟨[], by simp⟩

/-- The matched case of the spec, as a predicate on the step states:
the output row reuses the identifier of a previous entry that lies in
the 9-cell neighborhood, is unclaimed, is within 150 km, and is
distance-minimal among all unclaimed neighborhood entries; the id is
claimed and the counter untouched. -/
def MatchedAt {α : Type} [LinearOrderedField α] (d : ℚ → ℚ → ℚ → ℚ → α)
    (prev : List PrevEntry) (st st' : TrkState) (p : BalloonPoint)
    (t : Tracked) : Prop :=
  ∃ e, e ∈ prev ∧ t.id = e.id ∧
    binKey e.lat e.lon ∈ neighborBinKeys p.lat p.lon ∧
    e.id ∉ st.used ∧ d p.lat p.lon e.lat e.lon ≤ 150 ∧
    (∀ e₂, e₂ ∈ prev → binKey e₂.lat e₂.lon ∈ neighborBinKeys p.lat p.lon →
      e₂.id ∉ st.used →
      d p.lat p.lon e.lat e.lon ≤ d p.lat p.lon e₂.lat e₂.lon) ∧
    st'.used = t.id :: st.used ∧ st'.nextId = st.nextId

/-- The minted case of the spec: a fresh `"b" + counter` identifier is
issued, the counter strictly increases, no previous id is claimed, and
no unclaimed previous entry of the 9-cell neighborhood lies within
150 km. -/
def MintedAt {α : Type} [LinearOrderedField α] (d : ℚ → ℚ → ℚ → ℚ → α)
    (prev : List PrevEntry) (st st' : TrkState) (p : BalloonPoint)
    (t : Tracked) : Prop :=
  t.id = "b" ++ Nat.repr st.nextId ∧ st'.used = st.used ∧
  st'.nextId = st.nextId + 1 ∧
  ¬ ∃ e, e ∈ prev ∧ binKey e.lat e.lon ∈ neighborBinKeys p.lat p.lon ∧
      e.id ∉ st.used ∧ d p.lat p.lon e.lat e.lon ≤ 150

theorem stepChar {α : Type} [LinearOrderedField α] (d : ℚ → ℚ → ℚ → ℚ → α)
    (prev : List PrevEntry) (c0 : ℕ) (pts : List BalloonPoint)
    (hne : ∀ e ∈ prev, e.id ≠ "") (i : ℕ) (hi : i < pts.length) :
    ∃ t : Tracked,
      (stAt d prev c0 pts (i + 1)).out = (stAt d prev c0 pts i).out ++ [t] ∧
      t.lat = pts[i].lat ∧ t.lon = pts[i].lon ∧ t.meta = pts[i].meta ∧ t.idx = i ∧
      (MatchedAt d prev (stAt d prev c0 pts i) (stAt d prev c0 pts (i + 1)) pts[i] t ∨
       MintedAt d prev (stAt d prev c0 pts i) (stAt d prev c0 pts (i + 1)) pts[i] t) := by
  rw [stAt_succ d prev c0 pts hi]
  set st := stAt d prev c0 pts i with hst
  cases h : scanBest d st.used pts[i] (candsFor (buildBins prev) pts[i]) with
  | none =>
      rw [trackStep_none (i, pts[i]) h]
      refine ⟨_, rfl, rfl, rfl, rfl, rfl, Or.inr ⟨rfl, rfl, rfl, ?_⟩⟩
      rintro ⟨e, he, hkey, hcu, -⟩
      exact hcu (scanBest_none h e ((mem_candsFor prev pts[i] e).mpr ⟨he, hkey⟩))
  | some b =>
      obtain ⟨⟨c, hc, hcu, hcid, hckm⟩, hmin⟩ := scanBest_some h
      obtain ⟨hcprev, hckey⟩ := (mem_candsFor prev pts[i] c).mp hc
      by_cases hcond : b.1 ≠ "" ∧ b.2 ≤ 150
      · rw [trackStep_matched (i, pts[i]) h hcond]
        refine ⟨_, rfl, rfl, rfl, rfl, rfl, Or.inl ?_⟩
        refine ⟨c, hcprev, hcid.symm, hckey, hcu, ?_, ?_, rfl, rfl⟩
        · rw [hckm]; exact hcond.2
        · intro e₂ he₂ hkey₂ hcu₂
          rw [hckm]
          exact hmin e₂ ((mem_candsFor prev pts[i] e₂).mpr ⟨he₂, hkey₂⟩) hcu₂
      · rw [trackStep_over (i, pts[i]) h hcond]
        refine ⟨_, rfl, rfl, rfl, rfl, rfl, Or.inr ⟨rfl, rfl, rfl, ?_⟩⟩
        have hb1 : b.1 ≠ "" := hcid ▸ hne c hcprev
        have hb2 : ¬ b.2 ≤ 150 := fun hh => hcond ⟨hb1, hh⟩
        rintro ⟨e, he, hkey, hcu', hd⟩
        exact hb2 ((hmin e ((mem_candsFor prev pts[i] e).mpr ⟨he, hkey⟩) hcu').trans hd)

theorem assignGen_fst {α : Type} [LinearOrderedField α] (d : ℚ → ℚ → ℚ → ℚ → α)
    (prev : List PrevEntry) (c0 : ℕ) (pts : List BalloonPoint) :
    (assignStableIdsGen d prev c0 pts).1 = stAt d prev c0 pts pts.length := by
  have hlen : (pts.enum).length = pts.length := by
    simp [List.enum, List.enumFrom_length]
  simp only [assignStableIdsGen, stAt]
  rw [List.take_of_length_le (by omega)]

/-! ## Uniqueness invariant of the matching loop -/

/-- Invariant carried through the loop: output ids are pairwise
distinct, the counter never went below its starting value, and every
output id is either a claimed previous id or a fresh minted id. -/
def IdInv (prev : List PrevEntry) (c0 : ℕ) (st : TrkState) : Prop :=
  (st.out.map Tracked.id).Nodup ∧ c0 ≤ st.nextId ∧
  ∀ t ∈ st.out, (t.id ∈ prev.map PrevEntry.id ∧ t.id ∈ st.used) ∨
    ∃ m, c0 ≤ m ∧ m < st.nextId ∧ t.id = "b" ++ Nat.repr m

theorem idInv_step {α : Type} [LinearOrderedField α] (d : ℚ → ℚ → ℚ → ℚ → α)
    (prev : List PrevEntry) (c0 : ℕ)
    (hbound : ∀ e ∈ prev, ∀ m, c0 ≤ m → e.id ≠ "b" ++ Nat.repr m)
    (st : TrkState) (ip : ℕ × BalloonPoint) (hinv : IdInv prev c0 st) :
    IdInv prev c0 (trackStep d (buildBins prev) st ip) := by
  obtain ⟨hnd, hc0, hcls⟩ := hinv
  have hmintNotIn : ∀ t ∈ st.out, t.id ≠ "b" ++ Nat.repr st.nextId := by
    intro t ht heq
    rcases hcls t ht with ⟨hmem, -⟩ | ⟨m, hm0, hmlt, hmeq⟩
    · obtain ⟨e, he, heid⟩ := List.mem_map.mp hmem
      exact hbound e he st.nextId hc0 (heid ▸ heq)
    · exact absurd (mintedId_inj (hmeq.symm.trans heq)) (by omega)
  have hmintCase : IdInv prev c0
      ⟨st.used, st.nextId + 1,
       st.out ++ [⟨"b" ++ Nat.repr st.nextId, ip.2.lat, ip.2.lon, ip.2.meta, ip.1⟩]⟩ := by
    refine ⟨?_, by show c0 ≤ st.nextId + 1; omega, ?_⟩
    · simp only [List.map_append, List.map_cons, List.map_nil, List.nodup_append,
        List.nodup_cons, List.nodup_nil, List.disjoint_singleton]
      exact ⟨hnd, by simp, fun hmem => by
        obtain ⟨t, ht, heq⟩ := List.mem_map.mp hmem
        exact hmintNotIn t ht heq⟩
    · intro t ht
      rcases List.mem_append.mp ht with ht | ht
      · rcases hcls t ht with ⟨hmem, hus⟩ | ⟨m, hm0, hmlt, hmeq⟩
        · exact Or.inl ⟨hmem, hus⟩
        · exact Or.inr ⟨m, hm0, by show m < st.nextId + 1; omega, hmeq⟩
      · rcases List.mem_singleton.mp ht with rfl
        exact Or.inr ⟨st.nextId, hc0, by show st.nextId < st.nextId + 1; omega, rfl⟩
  cases h : scanBest d st.used ip.2 (candsFor (buildBins prev) ip.2) with
  | none => rw [trackStep_none ip h]; exact hmintCase
  | some b =>
      by_cases hcond : b.1 ≠ "" ∧ b.2 ≤ 150
      · rw [trackStep_matched ip h hcond]
        obtain ⟨⟨c, hc, hcu, hcid, -⟩, -⟩ := scanBest_some h
        obtain ⟨hcprev, -⟩ := (mem_candsFor prev ip.2 c).mp hc
        have hb1NotIn : ∀ t ∈ st.out, t.id ≠ b.1 := by
          intro t ht heq
          rcases hcls t ht with ⟨-, hus⟩ | ⟨m, hm0, -, hmeq⟩
          · exact hcu (hcid ▸ heq ▸ hus)
          · exact hbound c hcprev m hm0 (hcid.trans (heq.symm.trans hmeq))
        refine ⟨?_, hc0, ?_⟩
        · simp only [List.map_append, List.map_cons, List.map_nil, List.nodup_append,
            List.nodup_cons, List.nodup_nil, List.disjoint_singleton]
          exact ⟨hnd, by simp, fun hmem => by
            obtain ⟨t, ht, heq⟩ := List.mem_map.mp hmem
            exact hb1NotIn t ht heq⟩
        · intro t ht
          rcases List.mem_append.mp ht with ht | ht
          · rcases hcls t ht with ⟨hmem, hus⟩ | ⟨m, hm0, hmlt, hmeq⟩
            · exact Or.inl ⟨hmem, List.mem_cons_of_mem _ hus⟩
            · exact Or.inr ⟨m, hm0, hmlt, hmeq⟩
          · rcases List.mem_singleton.mp ht with rfl
            refine Or.inl ⟨?_, List.mem_cons_self _ _⟩
            exact List.mem_map.mpr ⟨c, hcprev, hcid⟩
      · rw [trackStep_over ip h hcond]; exact hmintCase

theorem idInv_foldl {α : Type} [LinearOrderedField α] (d : ℚ → ℚ → ℚ → ℚ → α)
    (prev : List PrevEntry) (c0 : ℕ)
    (hbound : ∀ e ∈ prev, ∀ m, c0 ≤ m → e.id ≠ "b" ++ Nat.repr m) :
    ∀ (l : List (ℕ × BalloonPoint)) (st : TrkState), IdInv prev c0 st →
      IdInv prev c0 (l.foldl (trackStep d (buildBins prev)) st) := by
  intro l
  induction l with
  | nil => intro st h; exact h
  | cons ip rest ih =>
      intro st h
      exact ih _ (idInv_step d prev c0 hbound st ip h)

theorem assignGen_unique {α : Type} [LinearOrderedField α] (d : ℚ → ℚ → ℚ → ℚ → α)
    (prev : List PrevEntry) (c0 : ℕ) (pts : List BalloonPoint)
    (hbound : ∀ e ∈ prev, ∀ m, c0 ≤ m → e.id ≠ "b" ++ Nat.repr m) :
    ((assignStableIdsGen d prev c0 pts).1.out.map Tracked.id).Nodup ∧
    ∀ t ∈ (assignStableIdsGen d prev c0 pts).1.out,
      t.id ∈ prev.map PrevEntry.id ∨
      ∃ m, c0 ≤ m ∧ t.id = "b" ++ Nat.repr m ∧
        ("b" ++ Nat.repr m) ∉ prev.map PrevEntry.id := by
  have h0 : IdInv prev c0 ⟨[], c0, []⟩ := ⟨by simp, le_refl _, by simp⟩
  have hfin := idInv_foldl d prev c0 hbound (pts.enum) _ h0
  obtain ⟨hnd, -, hcls⟩ := hfin
  refine ⟨hnd, ?_⟩
  intro t ht
  rcases hcls t ht with ⟨hmem, -⟩ | ⟨m, hm0, -, hmeq⟩
  · exact Or.inl hmem
  · refine Or.inr ⟨m, hm0, hmeq, ?_⟩
    intro hmem
    obtain ⟨e, he, heid⟩ := List.mem_map.mp hmem
    exact hbound e he m hm0 heid

/-! ## Rebuilding the identity table (`newPrev`) -/

theorem mem_mapSet (m : List PrevEntry) (id : String) (lat lon : ℚ) (e : PrevEntry) :
    e ∈ mapSet m id lat lon → e ∈ m ∨ e = ⟨id, lat, lon⟩ := by
  induction m with
  | nil => intro h; simpa [mapSet] using h
  | cons e0 rest ih =>
      intro h
      by_cases h0 : e0.id = id
      · simp only [mapSet, if_pos h0] at h
        rcases List.mem_cons.mp h with rfl | h
        · exact Or.inr rfl
        · exact Or.inl (List.mem_cons_of_mem _ h)
      · simp only [mapSet, if_neg h0] at h
        rcases List.mem_cons.mp h with rfl | h
        · exact Or.inl (List.mem_cons_self _ _)
        · rcases ih h with h | h
          · exact Or.inl (List.mem_cons_of_mem _ h)
          · exact Or.inr h

theorem mapSet_keys (m : List PrevEntry) (id : String) (lat lon : ℚ) (k : String) :
    k ∈ (mapSet m id lat lon).map PrevEntry.id ↔
      k = id ∨ k ∈ m.map PrevEntry.id := by
  induction m with
  | nil => simp [mapSet]
  | cons e0 rest ih =>
      by_cases h0 : e0.id = id
      · subst h0
        simp only [mapSet, List.map_cons, List.mem_cons]
        simp only [if_true, List.map_cons, List.mem_cons]
        tauto
      · simp only [mapSet, if_neg h0, List.map_cons, List.mem_cons, ih]
        tauto

theorem foldl_mapSet_mem (l : List Tracked) :
    ∀ (m : List PrevEntry) (e : PrevEntry),
      e ∈ l.foldl (fun m t => mapSet m t.id t.lat t.lon) m →
      e ∈ m ∨ ∃ t ∈ l, e = ⟨t.id, t.lat, t.lon⟩ := by
  induction l with
  | nil => intro m e h; exact Or.inl h
  | cons t rest ih =>
      intro m e h
      rcases ih _ e h with h | ⟨t', ht', rfl⟩
      · rcases mem_mapSet m t.id t.lat t.lon e h with h | rfl
        · exact Or.inl h
        · exact Or.inr ⟨t, List.mem_cons_self _ _, rfl⟩
      · exact Or.inr ⟨t', List.mem_cons_of_mem _ ht', rfl⟩

theorem foldl_mapSet_keys_mono (l : List Tracked) :
    ∀ (m : List PrevEntry) (k : String), k ∈ m.map PrevEntry.id →
      k ∈ (l.foldl (fun m t => mapSet m t.id t.lat t.lon) m).map PrevEntry.id := by
  induction l with
  | nil => intro m k h; exact h
  | cons t rest ih =>
      intro m k h
      exact ih _ k ((mapSet_keys m t.id t.lat t.lon k).mpr (Or.inr h))

theorem foldl_mapSet_keys (l : List Tracked) :
    ∀ (m : List PrevEntry) (t : Tracked), t ∈ l →
      t.id ∈ (l.foldl (fun m t => mapSet m t.id t.lat t.lon) m).map PrevEntry.id := by
  induction l with
  | nil => intro m t h; simp at h
  | cons t0 rest ih =>
      intro m t h
      rcases List.mem_cons.mp h with rfl | h
      · exact foldl_mapSet_keys_mono rest _ t.id
          ((mapSet_keys m t.id t.lat t.lon t.id).mpr (Or.inl rfl))
      · exact ih _ t h

/-! ## The bucket fallback loop -/

theorem tryBuckets_first_ok (fetchU : ℕ → Except String JVal) :
    ∀ (n a : ℕ) (le : Option String) (h : ℕ) (dh : JVal),
      a ≤ h → h < a + n → fetchU h = .ok dh →
      (∀ h2, a ≤ h2 → h2 < h → (fetchU h2).isOk = false) →
      tryBuckets fetchU (List.range' a n) le = .ok (h, dh) := by
  intro n
  induction n with
  | zero => intro a le h dh h1 h2 _ _; omega
  | succ n ih =>
      intro a le h dh h1 h2 hok hfail
      rw [List.range'_succ]
      rcases Nat.eq_or_lt_of_le h1 with rfl | hlt
      · simp [tryBuckets, hok]
      · have hfa : (fetchU a).isOk = false := hfail a (le_refl _) hlt
        cases hfua : fetchU a with
        | ok v => rw [hfua] at hfa; simp [Except.isOk, Except.toBool] at hfa
        | error e =>
            simp only [tryBuckets, hfua]
            exact ih (a + 1) (some e) h dh (by omega) (by omega) hok
              (fun h2 hh1 hh2 => hfail h2 (by omega) hh2)

theorem tryBuckets_all_fail (fetchU : ℕ → Except String JVal) :
    ∀ (n a : ℕ) (le : Option String),
      (∀ h2, a ≤ h2 → h2 < a + n → (fetchU h2).isOk = false) →
      ∃ le2, tryBuckets fetchU (List.range' a n) le = .error le2 ∧
        (n = 0 → le2 = le) ∧
        (∀ e, 0 < n → fetchU (a + n - 1) = .error e → le2 = some e) := by
  intro n
  induction n with
  | zero =>
      intro a le _
      exact ⟨le, rfl, fun _ => rfl, fun e h0 => absurd h0 (by omega)⟩
  | succ n ih =>
      intro a le hfail
      have hfa : (fetchU a).isOk = false := hfail a (le_refl _) (by omega)
      cases hfua : fetchU a with
      | ok v => rw [hfua] at hfa; simp [Except.isOk, Except.toBool] at hfa
      | error e0 =>
          rw [List.range'_succ]
          simp only [tryBuckets, hfua]
          obtain ⟨le2, hres, hzero, hlast⟩ :=
            ih (a + 1) (some e0) (fun h2 hh1 hh2 => hfail h2 (by omega) (by omega))
          refine ⟨le2, hres, fun h0 => absurd h0 (by omega), ?_⟩
          intro e _ hfe
          rcases Nat.eq_zero_or_pos n with rfl | hn
          · have : a + 1 - 1 = a := by omega
            rw [this] at hfe
            rw [hfua] at hfe
            have he : e0 = e := by
              have := Except.error.inj hfe
              exact this
            exact (hzero rfl).trans (by rw [he])
          · have harith : a + (n + 1) - 1 = (a + 1) + n - 1 := by omega
            rw [harith] at hfe
            exact hlast e hn hfe

/-! ## Shape predicates: inversion -/

theorem isEmptyArray_iff (v : JVal) : isEmptyArray v = true ↔ v = .arr [] := by
  cases v with
  | arr l => cases l <;> simp [isEmptyArray]
  | _ => simp [isEmptyArray]

theorem isFlat_arr {v : JVal} (h : isFlatPointsShape v = true) : ∃ l, v = .arr l := by
  cases v with
  | arr l => exact ⟨l, rfl⟩
  | _ => simp [isFlatPointsShape] at h

theorem isTracks_arr {v : JVal} (h : isTracksShape v = true) : ∃ l, v = .arr l := by
  cases v with
  | arr l => exact ⟨l, rfl⟩
  | _ => simp [isTracksShape] at h

/-! ## Claim theorems: the shape normalizer -/

/-- C5: after unwrapping a `data` envelope, `extractLatestPositions`
routes by shape in order: an empty array yields `[]`; a flat point
list yields one candidate point per top-level element (normalization
drops the malformed ones); a track list yields the last point of each
track; any other payload fails with an error whose message carries a
textual preview of the payload truncated to at most 200 characters. -/
theorem extractLatestPositions_routing (raw : JVal) :
    (unwrapPayload raw = .arr [] → extractLatestPositions raw = .ok []) ∧
    (∀ l, unwrapPayload raw = .arr l → isFlatPointsShape (.arr l) = true →
      extractLatestPositions raw = .ok (l.filterMap normalizePoint)) ∧
    (∀ l, unwrapPayload raw = .arr l → isFlatPointsShape (.arr l) = false →
      isTracksShape (.arr l) = true →
      extractLatestPositions raw =
        .ok (l.filterMap (fun t => (trackLast t).bind normalizePoint))) ∧
    (isFlatPointsShape (unwrapPayload raw) = false →
      isTracksShape (unwrapPayload raw) = false →
      extractLatestPositions raw =
        .error ("Unexpected balloon data shape. Preview: " ++
          (stringify (unwrapPayload raw)).take 200) ∧
      ((stringify (unwrapPayload raw)).take 200).length ≤ 200) := by
  refine ⟨?_, ?_, ?_, ?_⟩
  · intro h
    simp [extractLatestPositions, h, isEmptyArray]
  · intro l hl hflat
    cases l with
    | nil => simp [extractLatestPositions, hl, isEmptyArray]
    | cons x xs =>
        simp [extractLatestPositions, hl, isEmptyArray, hflat, jarr]
  · intro l hl hflat htr
    cases l with
    | nil => simp [isFlatPointsShape] at hflat
    | cons x xs =>
        simp [extractLatestPositions, hl, isEmptyArray, hflat, htr, jarr]
  · intro hflat htr
    have hemp : isEmptyArray (unwrapPayload raw) = false := by
      rcases h : isEmptyArray (unwrapPayload raw) with - | -
      · rfl
      · rw [(isEmptyArray_iff _).mp h] at hflat
        simp [isFlatPointsShape] at hflat
    refine ⟨by simp [extractLatestPositions, hemp, hflat, htr], ?_⟩
    rw [String.take_eq]
    show ((stringify (unwrapPayload raw)).data.take 200).length ≤ 200
    simp only [List.length_take]
    omega

/-- C8: whenever the normalizer accepts a payload, the output list is
exactly an order-preserving `filterMap` of the unwrapped input list,
so its length never exceeds the input length (element count for the
flat shape, track count for the track shape) and dropped entries are
simply omitted. -/
theorem extract_no_invention (raw : JVal) (out : List BalloonPoint)
    (h : extractLatestPositions raw = .ok out) :
    ∃ l, unwrapPayload raw = .arr l ∧ out.length ≤ l.length ∧
      (out = l.filterMap normalizePoint ∨
       out = l.filterMap (fun t => (trackLast t).bind normalizePoint)) := by
  by_cases hemp : isEmptyArray (unwrapPayload raw) = true
  · refine ⟨[], (isEmptyArray_iff _).mp hemp, ?_⟩
    simp only [extractLatestPositions, hemp, if_true] at h
    have hout : out = [] := Except.ok.inj h.symm
    subst hout
    simp
  · rw [Bool.not_eq_true] at hemp
    by_cases hflat : isFlatPointsShape (unwrapPayload raw) = true
    · obtain ⟨l, hl⟩ := isFlat_arr hflat
      refine ⟨l, hl, ?_⟩
      rw [hl] at hemp hflat
      simp only [extractLatestPositions, hl, hemp, hflat, Bool.false_eq_true,
        if_false, if_true, jarr] at h
      have hout : out = l.filterMap normalizePoint := (Except.ok.inj h).symm
      subst hout
      exact ⟨List.length_filterMap_le _ _, Or.inl rfl⟩
    · rw [Bool.not_eq_true] at hflat
      by_cases htr : isTracksShape (unwrapPayload raw) = true
      · obtain ⟨l, hl⟩ := isTracks_arr htr
        refine ⟨l, hl, ?_⟩
        rw [hl] at hemp hflat htr
        simp only [extractLatestPositions, hl, hemp, hflat, htr,
          Bool.false_eq_true, if_false, if_true, jarr] at h
        have hout : out = l.filterMap (fun t => (trackLast t).bind normalizePoint) :=
          (Except.ok.inj h).symm
        subst hout
        exact ⟨List.length_filterMap_le _ _, Or.inr rfl⟩
      · rw [Bool.not_eq_true] at htr
        simp only [extractLatestPositions, hemp, hflat, htr,
          Bool.false_eq_true, if_false] at h
        simp at h

/-- C8 witness. -/
theorem extract_no_invention_witness :
    ∃ l, unwrapPayload (.arr [.arr [.num 1, .num 2], .null]) = .arr l ∧
      ([(⟨1, 2, none⟩ : BalloonPoint)]).length ≤ l.length ∧
      ([(⟨1, 2, none⟩ : BalloonPoint)] = l.filterMap normalizePoint ∨
       [(⟨1, 2, none⟩ : BalloonPoint)] =
         l.filterMap (fun t => (trackLast t).bind normalizePoint)) :=
  extract_no_invention (.arr [.arr [.num 1, .num 2], .null]) [⟨1, 2, none⟩] (by rfl)

/-- C10: shape detection looks only at the first element; in a
tracks-shaped payload any later element that is not a non-empty array
(an empty track, say) contributes nothing — its guarded last-element
access yields `null`, which normalization filters out — instead of
raising an error. -/
theorem tracks_shape_tolerant (l : List JVal) (htr : isTracksShape (.arr l) = true) :
    extractLatestPositions (.arr l) =
      .ok (l.filterMap (fun t => (trackLast t).bind normalizePoint)) ∧
    ∀ t, (∀ ys, t = JVal.arr ys → ys = []) → (trackLast t).bind normalizePoint = none := by
  constructor
  · cases l with
    | nil => simp [extractLatestPositions, unwrapPayload, isEmptyArray]
    | cons t0 rest =>
        cases t0 with
        | arr l0 =>
            cases l0 with
            | nil => simp [isTracksShape] at htr
            | cons fp more =>
                cases fp with
                | arr lfp =>
                    match lfp, htr with
                    | x :: y :: tail, htr =>
                      have hflat : isFlatPointsShape
                          (.arr (JVal.arr (JVal.arr (x :: y :: tail) :: more) :: rest)) =
                          false := by
                        cases more <;> simp [isFlatPointsShape, isNumber]
                      simp only [extractLatestPositions, unwrapPayload, isEmptyArray,
                        hflat, htr, Bool.false_eq_true, if_false, if_true, jarr]
                    | [], htr => simp [isTracksShape] at htr
                    | [x], htr => simp [isTracksShape] at htr
                | _ => simp [isTracksShape] at htr
        | _ => simp [isTracksShape] at htr
  · intro t ht
    cases t with
    | arr ys =>
        have : ys = [] := ht ys rfl
        subst this
        simp [trackLast]
    | _ => simp [trackLast]

/-- C10 witness. -/
theorem tracks_shape_tolerant_witness :
    extractLatestPositions (.arr [.arr [.arr [.num 1, .num 2]], .arr []]) =
      .ok ([.arr [.arr [.num 1, .num 2]], .arr []].filterMap
        (fun t => (trackLast t).bind normalizePoint)) ∧
    ∀ t, (∀ ys, t = JVal.arr ys → ys = []) → (trackLast t).bind normalizePoint = none :=
  tracks_shape_tolerant [.arr [.arr [.num 1, .num 2]], .arr []] (by rfl)

/-- C5 witness: the routing theorem applied to a concrete enveloped
flat payload. -/
theorem extractLatestPositions_routing_witness :
    extractLatestPositions (.obj [("data", .arr [.arr [.num 1, .num 2]])]) =
      .ok ([JVal.arr [.num 1, .num 2]].filterMap normalizePoint) :=
  (extractLatestPositions_routing _).2.1 [.arr [.num 1, .num 2]] (by rfl) (by rfl)

/-- The point interpretation rule as the spec words it: both
coordinates must be finite; if `|a| > 90` and `|b| ≤ 90` then `a` is
the longitude and `b` the latitude, else `a` latitude and `b`
longitude; after interpretation the point is dropped when `|lat| > 90`
or `|lon| > 180`; the third element is kept iff it is a finite
number. -/
def normalizePointSpec (a b : JVal) (attr : Option JVal) : Option BalloonPoint :=
  match asFiniteNum a, asFiniteNum b with
  | some qa, some qb =>
      if 90 < |qa| ∧ |qb| ≤ 90 then
        if 90 < |qb| ∨ 180 < |qa| then none
        else some ⟨qb, qa, attr.bind asFiniteNum⟩
      else
        if 90 < |qa| ∨ 180 < |qb| then none
        else some ⟨qa, qb, attr.bind asFiniteNum⟩
  | _, _ => none

/-- C6: `normalizePoint` implements exactly the spec's interpretation
rule on candidates `[a, b, attribute?]` (and drops every non-array or
too-short candidate); in particular `[100, 45]` is swapped to
`lat 45 / lon 100` while `[45, 100]` is not swapped. -/
theorem normalizePoint_spec :
    (∀ a b rest, normalizePoint (.arr (a :: b :: rest)) =
      normalizePointSpec a b rest.head?) ∧
    (∀ v, (∀ a b rest, v ≠ .arr (a :: b :: rest)) → normalizePoint v = none) ∧
    normalizePoint (.arr [.num 100, .num 45]) = some ⟨45, 100, none⟩ ∧
    normalizePoint (.arr [.num 45, .num 100]) = some ⟨45, 100, none⟩ := by
  refine ⟨?_, ?_, by rfl, by rfl⟩
  · intro a b rest
    cases ha : asFiniteNum a with
    | none => simp [normalizePoint, normalizePointSpec, ha]
    | some qa =>
        cases hb : asFiniteNum b with
        | none => simp [normalizePoint, normalizePointSpec, ha, hb]
        | some qb =>
            by_cases hc : 90 < |qa| ∧ |qb| ≤ 90
            · have hbool : (decide (90 < |qa|) && decide (|qb| ≤ 90)) = true := by
                simp [hc.1, hc.2]
              simp [normalizePoint, normalizePointSpec, ha, hb, hbool, hc]
            · have hbool : (decide (90 < |qa|) && decide (|qb| ≤ 90)) = false := by
                rw [Bool.and_eq_false_iff]
                rcases not_and_or.mp hc with h | h
                · exact Or.inl (by simpa using h)
                · exact Or.inr (by simpa using h)
              simp [normalizePoint, normalizePointSpec, ha, hb, hbool, hc]
  · intro v hv
    cases v with
    | arr l =>
        match l, hv with
        | [], _ => rfl
        | [a], _ => rfl
        | a :: b :: rest, hv => exact absurd rfl (hv a b rest)
    | _ => rfl

/-- C6 witness: the catch-all branch applied to a concrete non-array
candidate. -/
theorem normalizePoint_spec_witness : normalizePoint .null = none :=
  normalizePoint_spec.2.1 .null (fun a b rest h => JVal.noConfusion h)

/-! ## Claim theorems: the snapshot fetcher -/

/-- C3: the requested hour is clamped to an integer in `[0, 23]`
(non-finite input becomes 0, fractional input is floored, out-of-range
input is clamped, never rejected); buckets are then attempted in
ascending age order from the clamped value, a failing bucket merely
advances the loop, and the first success is returned tagged upstream
with the age actually obtained and overwrites the single cache slot
with the current timestamp; when no bucket succeeds the cache slot is
left untouched. -/
theorem GET_upstream_spec (fetchU : ℕ → Except String JVal) (now : ℤ)
    (cache : Option CacheEntry) (req : JNum) :
    (clampHoursAgo req ≤ 23) ∧
    (∀ q : ℚ, req = .fin q → 0 ≤ q → q < 24 →
      (clampHoursAgo req : ℤ) = ⌊q⌋) ∧
    (∀ q : ℚ, req = .fin q → q < 0 → clampHoursAgo req = 0) ∧
    (∀ q : ℚ, req = .fin q → 23 ≤ q → clampHoursAgo req = 23) ∧
    (req = .nan ∨ (∃ s, req = .inf s) → clampHoursAgo req = 0) ∧
    (∀ h dh, clampHoursAgo req ≤ h → h ≤ 23 → fetchU h = .ok dh →
      (∀ h2, clampHoursAgo req ≤ h2 → h2 < h → (fetchU h2).isOk = false) →
      GETballoons fetchU now cache req = (some ⟨now, h, dh⟩, .upstream h dh)) ∧
    ((∀ h, clampHoursAgo req ≤ h → h ≤ 23 → (fetchU h).isOk = false) →
      (GETballoons fetchU now cache req).1 = cache) := by
  have hle23 : clampHoursAgo req ≤ 23 := by
    cases req with
    | fin q => simp only [clampHoursAgo]; omega
    | nan => simp [clampHoursAgo]
    | inf s => simp [clampHoursAgo]
  refine ⟨hle23, ?_, ?_, ?_, ?_, ?_, ?_⟩
  · rintro q rfl h0 h24
    have hf0 : (0 : ℤ) ≤ ⌊q⌋ := by
      rw [Int.le_floor]
      exact_mod_cast h0
    have hf23 : ⌊q⌋ < 24 := by
      rw [Int.floor_lt]
      exact_mod_cast h24
    simp only [clampHoursAgo]
    omega
  · rintro q rfl hneg
    have hf : ⌊q⌋ < 0 := by
      rw [Int.floor_lt]
      exact_mod_cast hneg
    simp only [clampHoursAgo]
    omega
  · rintro q rfl hge
    have hf : (23 : ℤ) ≤ ⌊q⌋ := by
      rw [Int.le_floor]
      exact_mod_cast hge
    simp only [clampHoursAgo]
    omega
  · rintro (rfl | ⟨s, rfl⟩) <;> rfl
  · intro h dh hrh hh23 hok hfail
    have htb : tryBuckets fetchU (List.range' (clampHoursAgo req)
        (24 - clampHoursAgo req)) none = .ok (h, dh) :=
      tryBuckets_first_ok fetchU (24 - clampHoursAgo req) (clampHoursAgo req)
        none h dh hrh (by omega) hok hfail
    simp [GETballoons, htb]
  · intro hall
    obtain ⟨le2, herr, -, -⟩ := tryBuckets_all_fail fetchU (24 - clampHoursAgo req)
      (clampHoursAgo req) none (fun h2 hh1 hh2 => hall h2 hh1 (by omega))
    cases cache with
    | none => simp [GETballoons, herr]
    | some c =>
        simp only [GETballoons, herr]
        split <;> rfl

/-- C3 witness: a concrete run where bucket 0 succeeds at once. -/
theorem GET_upstream_spec_witness :
    GETballoons (fun _ => .ok .null) 7 none (.fin 0) =
      (some ⟨7, 0, .null⟩, .upstream 0 .null) :=
  (GET_upstream_spec (fun _ => .ok .null) 7 none (.fin 0)).2.2.2.2.2.1 0 .null
    (by rfl) (by omega) (by rfl) (fun h2 hh1 hh2 => absurd (hh1.trans_lt hh2) (by omega))

/-- C4 counterexample: with every bucket failing and a non-empty cache
slot whose stored datum is JSON `null` (falsy), the route answers with
the 502 failure instead of the cached payload the claim promises. -/
theorem GET_cache_null_counterexample :
    GETballoons (fun _ => .error ("boom")) 5000 (some ⟨0, 3, .null⟩) (.fin 0) =
      (some ⟨0, 3, .null⟩, .fail ("boom")) ∧
    (some (⟨0, 3, .null⟩ : CacheEntry)).isSome = true ∧
    (BalloonsResp.fail ("boom")).status = 502 := by
  refine ⟨by rfl, by rfl, by rfl⟩

/-- C4 (amended): when every bucket attempt fails, a cache slot whose
datum is truthy is served as `source=cache` with
`cacheAgeSeconds = round((now − timestamp)/1000)` — within half a
second of the exact age — without mutating the slot; when the slot is
empty __or holds falsy data__, the call fails with 502 carrying the
last transport error observed. -/
theorem GET_cache_fallback (fetchU : ℕ → Except String JVal) (now : ℤ)
    (cache : Option CacheEntry) (req : JNum) (e23 : String)
    (hall : ∀ h, clampHoursAgo req ≤ h → h ≤ 23 → (fetchU h).isOk = false)
    (h23 : fetchU 23 = .error e23) :
    (∀ c, cache = some c → truthy c.data = true →
      GETballoons fetchU now cache req =
        (some c, .cache c.hoursAgo
          (jsRound (((now - c.timestampMs : ℤ) : ℚ) / 1000)) c.data) ∧
      1000 * jsRound (((now - c.timestampMs : ℤ) : ℚ) / 1000) ≤
        (now - c.timestampMs) + 500 ∧
      (now - c.timestampMs) - 500 <
        1000 * jsRound (((now - c.timestampMs : ℤ) : ℚ) / 1000)) ∧
    (cache = none →
      GETballoons fetchU now cache req = (none, .fail e23) ∧
      (BalloonsResp.fail e23).status = 502) ∧
    (∀ c, cache = some c → truthy c.data = false →
      GETballoons fetchU now cache req = (some c, .fail e23) ∧
      (BalloonsResp.fail e23).status = 502) := by
  have hclamp : clampHoursAgo req ≤ 23 := by
    cases req with
    | fin q => simp only [clampHoursAgo]; omega
    | nan => simp [clampHoursAgo]
    | inf s => simp [clampHoursAgo]
  obtain ⟨le2, herr, -, hlast⟩ := tryBuckets_all_fail fetchU (24 - clampHoursAgo req)
    (clampHoursAgo req) none (fun h2 hh1 hh2 => hall h2 hh1 (by omega))
  have hn : 0 < 24 - clampHoursAgo req := by omega
  have h23idx : clampHoursAgo req + (24 - clampHoursAgo req) - 1 = 23 := by omega
  have hle2 : le2 = some e23 := hlast e23 hn (by rw [h23idx]; exact h23)
  subst hle2
  have hbounds : ∀ Δ : ℤ, 1000 * jsRound ((Δ : ℚ) / 1000) ≤ Δ + 500 ∧
      Δ - 500 < 1000 * jsRound ((Δ : ℚ) / 1000) := by
    intro Δ
    have hfl : (jsRound ((Δ : ℚ) / 1000) : ℚ) ≤ (Δ : ℚ) / 1000 + 1 / 2 :=
      Int.floor_le _
    have hfl2 : (Δ : ℚ) / 1000 + 1 / 2 < jsRound ((Δ : ℚ) / 1000) + 1 :=
      Int.lt_floor_add_one _
    constructor
    · have hq : (1000 : ℚ) * jsRound ((Δ : ℚ) / 1000) ≤ (Δ : ℚ) + 500 := by
        nlinarith
      exact_mod_cast hq
    · have hq : (Δ : ℚ) - 500 < 1000 * jsRound ((Δ : ℚ) / 1000) := by
        nlinarith
      exact_mod_cast hq
  refine ⟨?_, ?_, ?_⟩
  · rintro c rfl ht
    refine ⟨by simp [GETballoons, herr, ht, lastErrText], ?_, ?_⟩
    · exact (hbounds (now - c.timestampMs)).1
    · exact (hbounds (now - c.timestampMs)).2
  · rintro rfl
    exact ⟨by simp [GETballoons, herr, lastErrText], rfl⟩
  · rintro c rfl ht
    exact ⟨by simp [GETballoons, herr, ht, lastErrText], rfl⟩

/-- C4 (amended) witness: all buckets down, truthy cached datum served
from the cache with its rounded age. -/
theorem GET_cache_fallback_witness :
    GETballoons (fun _ => .error ("down")) 5000 (some ⟨0, 3, .bool true⟩) (.fin 0) =
      (some ⟨0, 3, .bool true⟩, .cache 3
        (jsRound (((5000 - 0 : ℤ) : ℚ) / 1000)) (.bool true)) ∧
    1000 * jsRound (((5000 - 0 : ℤ) : ℚ) / 1000) ≤ (5000 - 0) + 500 ∧
    (5000 - 0 : ℤ) - 500 < 1000 * jsRound (((5000 - 0 : ℤ) : ℚ) / 1000) :=
  (GET_cache_fallback (fun _ => .error ("down")) 5000 (some ⟨0, 3, .bool true⟩)
    (.fin 0) ("down") (fun h _ _ => by rfl) (by rfl)).1 ⟨0, 3, .bool true⟩ rfl (by rfl)

/-! ## Claim theorems: the identity tracker -/

/-- C1: `assignStableIds` processes the current points in list order;
at each step either some previous entry in the point's 9-cell
neighborhood is unclaimed, within the inclusive 150 km haversine
threshold and distance-minimal among all such entries, and its
identifier is assigned and claimed, or a fresh identifier
`"b" + counter` is minted from the strictly increasing
process-lifetime counter (values never reused). -/
theorem assignStableIds_per_point (prev : List PrevEntry) (c0 : ℕ)
    (pts : List BalloonPoint) (hne : ∀ e ∈ prev, e.id ≠ "") :
    (assignStableIds prev c0 pts).1.out.length = pts.length ∧
    ∀ i, i < pts.length →
      ∃ t : Tracked, (assignStableIds prev c0 pts).1.out[i]? = some t ∧
        ∀ hi : i < pts.length,
        t.lat = pts[i].lat ∧ t.lon = pts[i].lon ∧ t.meta = pts[i].meta ∧ t.idx = i ∧
        (MatchedAt haversineKm prev (stAt haversineKm prev c0 pts i)
            (stAt haversineKm prev c0 pts (i + 1)) pts[i] t ∨
         MintedAt haversineKm prev (stAt haversineKm prev c0 pts i)
            (stAt haversineKm prev c0 pts (i + 1)) pts[i] t) := by
  have hfst : (assignStableIds prev c0 pts).1 =
      stAt haversineKm prev c0 pts pts.length :=
    assignGen_fst haversineKm prev c0 pts
  constructor
  · rw [hfst, stAt_out_length]; omega
  · intro i hi
    obtain ⟨t, hout, hlat, hlon, hmeta, hidx, hdisj⟩ :=
      stepChar haversineKm prev c0 pts hne i hi
    refine ⟨t, ?_, fun _ => ⟨hlat, hlon, hmeta, hidx, hdisj⟩⟩
    rw [hfst]
    obtain ⟨suffix, hsuf⟩ := stAt_out_mono haversineKm prev c0 pts
      (show i + 1 ≤ pts.length by omega)
    rw [hsuf, hout, List.append_assoc]
    have hlen : (stAt haversineKm prev c0 pts i).out.length = i := by
      rw [stAt_out_length]; omega
    rw [List.getElem?_append_right (by omega)]
    simp [hlen]

/-- C1 witness. -/
theorem assignStableIds_per_point_witness :
    (assignStableIds [] 1 [⟨0, 0, none⟩]).1.out.length =
      [(⟨0, 0, none⟩ : BalloonPoint)].length :=
  (assignStableIds_per_point [] 1 [⟨0, 0, none⟩] (by simp)).1

/-- C2: within one poll's output the identifiers are pairwise
distinct; every output id is either a previous-table id (claimable at
most once, which the `Nodup` part enforces) or a freshly minted
`"b" + n` that collides with no previous-table id, provided the
previous table satisfies the program's own invariant that its ids
never use counter values the process has not yet spent. -/
theorem assignStableIds_unique_ids (prev : List PrevEntry) (c0 : ℕ)
    (pts : List BalloonPoint)
    (hbound : ∀ e ∈ prev, ∀ m, c0 ≤ m → e.id ≠ "b" ++ Nat.repr m) :
    ((assignStableIds prev c0 pts).1.out.map Tracked.id).Nodup ∧
    ∀ t ∈ (assignStableIds prev c0 pts).1.out,
      t.id ∈ prev.map PrevEntry.id ∨
      ∃ m, c0 ≤ m ∧ t.id = "b" ++ Nat.repr m ∧
        ("b" ++ Nat.repr m) ∉ prev.map PrevEntry.id :=
  assignGen_unique haversineKm prev c0 pts hbound

/-- C2 witness. -/
theorem assignStableIds_unique_ids_witness :
    ((assignStableIds [] 0 [⟨0, 0, none⟩, ⟨50, 50, none⟩]).1.out.map
      Tracked.id).Nodup :=
  (assignStableIds_unique_ids [] 0 [⟨0, 0, none⟩, ⟨50, 50, none⟩] (by simp)).1

/-- C7: a failed poll never partially applies — when the fetch or the
normalizer raises, the identity table and the id counter are returned
unchanged; on success the table is replaced wholesale: every table row
is one of the just-computed id/position pairs, and every computed id
is present in the new table. -/
theorem refreshBalloons_atomic (raw : Except String JVal) (st : PollState) :
    (∀ e, raw.bind extractLatestPositions = .error e →
      refreshBalloons raw st = (st, .error e)) ∧
    (∀ pts, raw.bind extractLatestPositions = .ok pts →
      refreshBalloons raw st =
        (⟨(assignStableIds st.prevById st.nextId pts).2,
          (assignStableIds st.prevById st.nextId pts).1.nextId⟩,
         .ok (assignStableIds st.prevById st.nextId pts).1.out) ∧
      (∀ p ∈ (assignStableIds st.prevById st.nextId pts).2,
        ∃ t ∈ (assignStableIds st.prevById st.nextId pts).1.out,
          p.id = t.id ∧ p.lat = t.lat ∧ p.lon = t.lon) ∧
      (∀ t ∈ (assignStableIds st.prevById st.nextId pts).1.out,
        t.id ∈ ((assignStableIds st.prevById st.nextId pts).2).map
          PrevEntry.id)) := by
  refine ⟨?_, ?_⟩
  · intro e he
    simp [refreshBalloons, he]
  · intro pts hpts
    have h2 : (assignStableIds st.prevById st.nextId pts).2 =
        ((assignStableIds st.prevById st.nextId pts).1.out).foldl
          (fun m t => mapSet m t.id t.lat t.lon) [] := rfl
    refine ⟨by simp [refreshBalloons, hpts], ?_, ?_⟩
    · intro p hp
      rw [h2] at hp
      rcases foldl_mapSet_mem _ [] p hp with h | ⟨t, ht, rfl⟩
      · simp at h
      · exact ⟨t, ht, rfl, rfl, rfl⟩
    · intro t ht
      rw [h2]
      exact foldl_mapSet_keys _ [] t ht

/-- C7 witness: a failing fetch leaves the table and counter alone. -/
theorem refreshBalloons_atomic_witness :
    refreshBalloons (.error ("down")) ⟨[⟨"b1", 2, 3⟩], 2⟩ =
      (⟨[⟨"b1", 2, 3⟩], 2⟩, .error ("down")) :=
  (refreshBalloons_atomic (.error ("down")) ⟨[⟨"b1", 2, 3⟩], 2⟩).1 "down" (by rfl)

/-! ## C9: the antimeridian blind spot of the binned search -/

/-- Two points facing each other across the 180° meridian at the
equator: the haversine distance the source would compute is about
22 km, well within the 150 km threshold. -/
theorem haversine_antimeridian_le :
    haversineKm 0 (1799/10) 0 (-1799/10) ≤ 150 := by
  have hkey : haversineKm 0 (1799/10) 0 (-1799/10) =
      2 * 6371 * Real.arcsin (min 1 (Real.sqrt
        ((Real.sin (Real.pi * (1799/1800)))^2))) := by
    simp only [haversineKm]
    push_cast
    norm_num
    ring_nf
    rw [show Real.pi * (-1799/1800 : ℝ) = -(Real.pi * (1799/1800)) by ring,
      Real.sin_neg, neg_sq]
  rw [hkey]
  have hpos : 0 < Real.sin (Real.pi * (1799/1800)) := by
    apply Real.sin_pos_of_pos_of_lt_pi
    · positivity
    · nlinarith [Real.pi_pos]
  rw [Real.sqrt_sq hpos.le, min_eq_right (Real.sin_le_one _)]
  rw [show Real.pi * (1799/1800 : ℝ) = Real.pi - Real.pi * (1/1800) by ring,
    Real.sin_pi_sub]
  rw [Real.arcsin_sin (by nlinarith [Real.pi_pos]) (by nlinarith [Real.pi_pos])]
  nlinarith [Real.pi_le_four, Real.pi_pos]

/-- The previous point's grid key does not appear among the 9 neighbor
keys of the current point: the 3×3 block uses raw cell indices with no
longitude wraparound. -/
theorem antimeridian_key_missed :
    binKey 0 (1799/10) ∉ neighborBinKeys 0 (-1799/10) := by
  have h1 : binKey 0 (1799/10) = "90,359" := by
    norm_num [binKey]
    rfl
  have h2 : neighborBinKeys 0 (-1799/10) =
      ["89,-1", "89,0", "89,1", "90,-1", "90,0", "90,1",
       "91,-1", "91,0", "91,1"] := by
    norm_num [neighborBinKeys]
    decide
  rw [h1, h2]
  decide

/-- C9: the candidate search never wraps longitude — for a previous
point at `(0, 179.9)` and a current point at `(0, −179.9)`, barely
22 km apart (≤ 150 km by haversine), the previous key lies outside the
current point's 9-key neighborhood, so `assignStableIds` mints a fresh
identifier (`"b2"`) instead of reassigning `"b1"`. -/
theorem assignStableIds_antimeridian_miss :
    haversineKm 0 (1799/10) 0 (-1799/10) ≤ 150 ∧
    binKey 0 (1799/10) ∉ neighborBinKeys 0 (-1799/10) ∧
    (assignStableIds [⟨"b1", 0, 1799/10⟩] 2 [⟨0, -1799/10, none⟩]).1.out.map
      Tracked.id = ["b2"] := by
  refine ⟨haversine_antimeridian_le, antimeridian_key_missed, ?_⟩
  have hne : ∀ e ∈ [(⟨"b1", 0, 1799/10⟩ : PrevEntry)], e.id ≠ "" := by
    intro e he
    rw [List.mem_singleton] at he
    subst he
    decide
  obtain ⟨t, hout, -, -, -, -, hdisj⟩ :=
    stepChar haversineKm [⟨"b1", 0, 1799/10⟩] 2 [⟨0, -1799/10, none⟩] hne 0
      (by norm_num)
  rcases hdisj with hm | hm
  · exfalso
    obtain ⟨e, he, -, hkey2, -⟩ := hm
    rw [List.mem_singleton] at he
    subst he
    exact antimeridian_key_missed hkey2
  · obtain ⟨hid, -, -, -⟩ := hm
    have houtfin : (assignStableIds [⟨"b1", 0, 1799/10⟩] 2
        [⟨0, -1799/10, none⟩]).1.out = [t] := by
      have hfst := assignGen_fst haversineKm [⟨"b1", 0, 1799/10⟩] 2
        [⟨0, -1799/10, none⟩]
      calc (assignStableIds [⟨"b1", 0, 1799/10⟩] 2 [⟨0, -1799/10, none⟩]).1.out
          = (stAt haversineKm [⟨"b1", 0, 1799/10⟩] 2
              [⟨0, -1799/10, none⟩] 1).out := by
            have hg : (assignStableIds [⟨"b1", 0, 1799/10⟩] 2
                [⟨0, -1799/10, none⟩]).1 =
                (assignStableIdsGen haversineKm [⟨"b1", 0, 1799/10⟩] 2
                  [⟨0, -1799/10, none⟩]).1 := rfl
            rw [hg, hfst]
            rfl
        _ = (stAt haversineKm [⟨"b1", 0, 1799/10⟩] 2
              [⟨0, -1799/10, none⟩] 0).out ++ [t] := hout
        _ = [t] := by
              rw [show (stAt haversineKm [⟨"b1", 0, 1799/10⟩] 2
                [⟨0, -1799/10, none⟩] 0).out = [] from rfl]
              rw [List.nil_append]
    rw [houtfin, List.map_singleton, hid]
    rfl

end Balloons
